import Mathlib

/-!
Verification of the ASCII case-insensitive keyword resolver from
`src/vendor/cssparser/src/macros.rs`.

Strings are modelled as lists of bytes (`List Nat`, each element < 256 for
actual inputs, though most lemmas need no such bound).  The scratch buffer of
`_internal__to_lowercase` is modelled by its capacity alone: the Rust function
reads only `buffer[..input.len()]`, which it fully initializes from `input`
before use, so the result depends only on the capacity and the input.
-/

namespace Cssparser

/-- A byte is ASCII uppercase: `matches!(byte, b'A'..=b'Z')` in the source. -/
def isUpperByte (b : Nat) : Bool := decide (65 ≤ b ∧ b ≤ 90)

/-- `u8::to_ascii_lowercase` on a single byte: uppercase ASCII maps to its
lowercase counterpart (`+ 32`), every other byte is unchanged. -/
def toLowerByte (b : Nat) : Nat := if 65 ≤ b ∧ b ≤ 90 then b + 32 else b

/-- `input.bytes().position(|byte| matches!(byte, b'A'..=b'Z'))`:
index of the first ASCII-uppercase byte, if any. -/
def findFirstUpper : List Nat → Option Nat
  | [] => none
  | b :: rest =>
      if isUpperByte b then some 0
      else (findFirstUpper rest).map (· + 1)

/-- `buffer.copy_from_slice(input); buffer[first_uppercase..].make_ascii_lowercase()`:
the input with the suffix starting at `p` ASCII-lowercased in place. -/
def lowercaseFrom (p : Nat) (l : List Nat) : List Nat :=
  l.take p ++ (l.drop p).map toLowerByte

/-- `_internal__to_lowercase(buffer, input)` from the source, with the buffer
abstracted to its capacity `cap`:
if `buffer.get_mut(..input.len())` succeeds (i.e. `input.len() ≤ cap`),
either lowercase from the first uppercase byte into the scratch space, or
return the input itself when it has no uppercase byte; otherwise `None`. -/
def toLowercase (cap : Nat) (input : List Nat) : Option (List Nat) :=
  if input.length ≤ cap then
    match findFirstUpper input with
    | some p => some (lowercaseFrom p input)
    | none => some input
  else
    none

/-- A keyword dictionary: ordered (key, value) pairs, as registered with
`ascii_case_insensitive_phf_map!`. -/
abbrev Dict (V : Type) : Type := List (List Nat × V)

/-- Exact-match lookup, the model of `MAP.get(s)` on the generated phf map. -/
def dictGet {V : Type} : Dict V → List Nat → Option V
  | [], _ => none
  | (key, v) :: rest, k => if key = k then some v else dictGet rest k

/-- `MAX_LENGTH` as generated by `cssparser_internal__max_len!`: the maximum
byte length over the registered keys. -/
def maxKeyLen {V : Type} (dict : Dict V) : Nat :=
  (dict.map (fun e => e.1.length)).foldr max 0

/-- The function generated by `ascii_case_insensitive_phf_map!`:
`cssparser_internal__to_lowercase!(input, MAX_LENGTH => lowercase);
 lowercase.and_then(|s| MAP.get(s))`. -/
def resolve {V : Type} (dict : Dict V) (input : List Nat) : Option V :=
  (toLowercase (maxKeyLen dict) input).bind (fun s => dictGet dict s)

/-- The `match` generated by `match_ignore_ascii_case!` with string arms
`arms` and a wildcard arm producing `dflt`:
`match lowercase.unwrap_or("A") { ... }`, where the sentinel `"A"` is the
single byte 65. -/
def matchIgnoreAsciiCase {V : Type} (arms : Dict V) (dflt : V) (input : List Nat) : V :=
  match dictGet arms ((toLowercase (maxKeyLen arms) input).getD [65]) with
  | some v => v
  | none => dflt

/-- A byte list free of ASCII uppercase bytes. -/
def noUpper (l : List Nat) : Bool := l.all (fun b => !isUpperByte b)

/-- Modelled from the spec: the simpler fold the spec's open question proposes,
which lowercases the whole copied buffer unconditionally instead of only the
suffix starting at the first uppercase byte. -/
def toLowercaseNaive (cap : Nat) (input : List Nat) : Option (List Nat) :=
  if input.length ≤ cap then some (input.map toLowerByte) else none

/-! ### Basic lemmas about the fold -/

theorem toLowerByte_of_not_upper {b : Nat} (h : isUpperByte b = false) :
    toLowerByte b = b := by
  unfold toLowerByte
  unfold isUpperByte at h
  simp only [decide_eq_false_iff_not] at h
  simp [h]

theorem map_toLowerByte_of_noUpper {l : List Nat} (h : noUpper l = true) :
    l.map toLowerByte = l := by
  induction l with
  | nil => rfl
  | cons b rest ih =>
      unfold noUpper at h
      simp only [List.all_cons, Bool.and_eq_true, Bool.not_eq_true'] at h
      simp only [List.map_cons]
      rw [toLowerByte_of_not_upper h.1, ih]
      unfold noUpper
      exact h.2

theorem findFirstUpper_none_noUpper {l : List Nat} (h : findFirstUpper l = none) :
    noUpper l = true := by
  induction l with
  | nil => rfl
  | cons b rest ih =>
      unfold findFirstUpper at h
      by_cases hb : isUpperByte b = true
      · rw [if_pos hb] at h
        exact absurd h (by simp)
      · rw [if_neg hb] at h
        simp only [Option.map_eq_none'] at h
        unfold noUpper
        simp only [List.all_cons, Bool.and_eq_true, Bool.not_eq_true']
        exact ⟨Bool.not_eq_true _ ▸ hb, ih h⟩

theorem findFirstUpper_take_noUpper {l : List Nat} {p : Nat}
    (h : findFirstUpper l = some p) : noUpper (l.take p) = true := by
  induction l generalizing p with
  | nil => simp [noUpper]
  | cons b rest ih =>
      unfold findFirstUpper at h
      by_cases hb : isUpperByte b = true
      · rw [if_pos hb] at h
        obtain rfl : (0 : Nat) = p := Option.some.inj h
        simp [noUpper]
      · rw [if_neg hb] at h
        simp only [Option.map_eq_some'] at h
        obtain ⟨q, hq, hpq⟩ := h
        subst hpq
        simp only [List.take_succ_cons]
        unfold noUpper
        simp only [List.all_cons, Bool.and_eq_true, Bool.not_eq_true']
        exact ⟨Bool.not_eq_true _ ▸ hb, ih hq⟩

theorem lowercaseFrom_eq_map {l : List Nat} {p : Nat}
    (h : findFirstUpper l = some p) : lowercaseFrom p l = l.map toLowerByte := by
  unfold lowercaseFrom
  conv_rhs => rw [← List.take_append_drop p l]
  rw [List.map_append]
  congr 1
  exact (map_toLowerByte_of_noUpper (findFirstUpper_take_noUpper h)).symm

/-- The fold, whenever the input fits the buffer, computes exactly the byte-wise
ASCII lowercasing of the input. -/
theorem toLowercase_eq_of_le {cap : Nat} {input : List Nat}
    (h : input.length ≤ cap) :
    toLowercase cap input = some (input.map toLowerByte) := by
  unfold toLowercase
  rw [if_pos h]
  cases hf : findFirstUpper input with
  | none =>
      show some input = some (input.map toLowerByte)
      rw [map_toLowerByte_of_noUpper (findFirstUpper_none_noUpper hf)]
  | some p =>
      show some (lowercaseFrom p input) = some (input.map toLowerByte)
      rw [lowercaseFrom_eq_map hf]

theorem toLowercase_eq_none_of_gt {cap : Nat} {input : List Nat}
    (h : cap < input.length) : toLowercase cap input = none := by
  unfold toLowercase
  rw [if_neg (by omega)]

theorem dictGet_length_le {V : Type} {dict : Dict V} {k : List Nat} {v : V}
    (h : dictGet dict k = some v) : k.length ≤ maxKeyLen dict := by
  induction dict with
  | nil => simp [dictGet] at h
  | cons e rest ih =>
      unfold dictGet at h
      by_cases he : e.1 = k
      · unfold maxKeyLen
        simp only [List.map_cons, List.foldr_cons]
        rw [he] at *
        omega
      · rw [if_neg he] at h
        have := ih h
        unfold maxKeyLen at *
        simp only [List.map_cons, List.foldr_cons]
        omega

/-! ### UTF-8 validity -/

/-- A UTF-8 continuation byte. -/
def IsCont (b : Nat) : Prop := 0x80 ≤ b ∧ b ≤ 0xBF

/-- Well-formed UTF-8 byte sequences (the standard shortest-form encoding,
excluding surrogates), read sequence by sequence. -/
inductive Utf8Valid : List Nat → Prop
  | nil : Utf8Valid []
  | ascii {b rest} : b ≤ 0x7F → Utf8Valid rest → Utf8Valid (b :: rest)
  | two {b c rest} : 0xC2 ≤ b → b ≤ 0xDF → IsCont c → Utf8Valid rest →
      Utf8Valid (b :: c :: rest)
  | threeLo {c1 c2 rest} : 0xA0 ≤ c1 → c1 ≤ 0xBF → IsCont c2 → Utf8Valid rest →
      Utf8Valid (0xE0 :: c1 :: c2 :: rest)
  | threeMid {b c1 c2 rest} : 0xE1 ≤ b → b ≤ 0xEC → IsCont c1 → IsCont c2 →
      Utf8Valid rest → Utf8Valid (b :: c1 :: c2 :: rest)
  | threeEd {c1 c2 rest} : 0x80 ≤ c1 → c1 ≤ 0x9F → IsCont c2 → Utf8Valid rest →
      Utf8Valid (0xED :: c1 :: c2 :: rest)
  | threeHi {b c1 c2 rest} : 0xEE ≤ b → b ≤ 0xEF → IsCont c1 → IsCont c2 →
      Utf8Valid rest → Utf8Valid (b :: c1 :: c2 :: rest)
  | fourLo {c1 c2 c3 rest} : 0x90 ≤ c1 → c1 ≤ 0xBF → IsCont c2 → IsCont c3 →
      Utf8Valid rest → Utf8Valid (0xF0 :: c1 :: c2 :: c3 :: rest)
  | fourMid {b c1 c2 c3 rest} : 0xF1 ≤ b → b ≤ 0xF3 → IsCont c1 → IsCont c2 →
      IsCont c3 → Utf8Valid rest → Utf8Valid (b :: c1 :: c2 :: c3 :: rest)
  | fourHi {c1 c2 c3 rest} : 0x80 ≤ c1 → c1 ≤ 0x8F → IsCont c2 → IsCont c3 →
      Utf8Valid rest → Utf8Valid (0xF4 :: c1 :: c2 :: c3 :: rest)

theorem toLowerByte_of_ge_128 {b : Nat} (h : 0x80 ≤ b) : toLowerByte b = b := by
  unfold toLowerByte
  rw [if_neg (by omega)]

theorem toLowerByte_ascii {b : Nat} (h : b ≤ 0x7F) : toLowerByte b ≤ 0x7F := by
  unfold toLowerByte
  by_cases hb : 65 ≤ b ∧ b ≤ 90
  · rw [if_pos hb]; omega
  · rw [if_neg hb]; exact h

/-- Byte-wise ASCII lowercasing maps well-formed UTF-8 to well-formed UTF-8:
every byte of a multi-byte sequence is ≥ 0x80 and thus left unchanged, and an
ASCII byte stays ASCII. -/
theorem utf8Valid_map_toLowerByte {l : List Nat} (h : Utf8Valid l) :
    Utf8Valid (l.map toLowerByte) := by
  induction h with
  | nil => exact Utf8Valid.nil
  | ascii hb _ ih =>
      exact Utf8Valid.ascii (toLowerByte_ascii hb) ih
  | two h1 h2 hc _ ih =>
      simp only [List.map_cons]
      rw [toLowerByte_of_ge_128 (by omega), toLowerByte_of_ge_128 hc.1]
      exact Utf8Valid.two h1 h2 hc ih
  | threeLo h1 h2 hc _ ih =>
      simp only [List.map_cons]
      rw [toLowerByte_of_ge_128 (by omega), toLowerByte_of_ge_128 (by omega),
        toLowerByte_of_ge_128 hc.1]
      exact Utf8Valid.threeLo h1 h2 hc ih
  | threeMid h1 h2 hc1 hc2 _ ih =>
      simp only [List.map_cons]
      rw [toLowerByte_of_ge_128 (by omega), toLowerByte_of_ge_128 hc1.1,
        toLowerByte_of_ge_128 hc2.1]
      exact Utf8Valid.threeMid h1 h2 hc1 hc2 ih
  | threeEd h1 h2 hc _ ih =>
      simp only [List.map_cons]
      rw [toLowerByte_of_ge_128 (by omega), toLowerByte_of_ge_128 (by omega),
        toLowerByte_of_ge_128 hc.1]
      exact Utf8Valid.threeEd h1 h2 hc ih
  | threeHi h1 h2 hc1 hc2 _ ih =>
      simp only [List.map_cons]
      rw [toLowerByte_of_ge_128 (by omega), toLowerByte_of_ge_128 hc1.1,
        toLowerByte_of_ge_128 hc2.1]
      exact Utf8Valid.threeHi h1 h2 hc1 hc2 ih
  | fourLo h1 h2 hc1 hc2 _ ih =>
      simp only [List.map_cons]
      rw [toLowerByte_of_ge_128 (by omega), toLowerByte_of_ge_128 (by omega),
        toLowerByte_of_ge_128 hc1.1, toLowerByte_of_ge_128 hc2.1]
      exact Utf8Valid.fourLo h1 h2 hc1 hc2 ih
  | fourMid h1 h2 hc1 hc2 hc3 _ ih =>
      simp only [List.map_cons]
      rw [toLowerByte_of_ge_128 (by omega), toLowerByte_of_ge_128 hc1.1,
        toLowerByte_of_ge_128 hc2.1, toLowerByte_of_ge_128 hc3.1]
      exact Utf8Valid.fourMid h1 h2 hc1 hc2 hc3 ih
  | fourHi h1 h2 hc1 hc2 _ ih =>
      simp only [List.map_cons]
      rw [toLowerByte_of_ge_128 (by omega), toLowerByte_of_ge_128 (by omega),
        toLowerByte_of_ge_128 hc1.1, toLowerByte_of_ge_128 hc2.1]
      exact Utf8Valid.fourHi h1 h2 hc1 hc2 ih

/-- At every index holding a byte ≥ 0x80, byte-wise lowercasing is the
identity. -/
theorem map_toLowerByte_getD_nonascii {l : List Nat} {i : Nat}
    (h : 0x80 ≤ l.getD i 0) : (l.map toLowerByte).getD i 0 = l.getD i 0 := by
  induction l generalizing i with
  | nil => simp at h
  | cons b rest ih =>
      cases i with
      | zero =>
          simp only [List.map_cons, List.getD_cons_zero] at *
          exact toLowerByte_of_ge_128 h
      | succ j =>
          simp only [List.map_cons, List.getD_cons_succ] at *
          exact ih h

/-! ### Further helper lemmas -/

theorem toLowercase_some_le {cap : Nat} {input s : List Nat}
    (h : toLowercase cap input = some s) :
    input.length ≤ cap ∧ s = input.map toLowerByte := by
  by_cases hl : input.length ≤ cap
  · rw [toLowercase_eq_of_le hl] at h
    exact ⟨hl, (Option.some.inj h).symm⟩
  · rw [toLowercase_eq_none_of_gt (by omega)] at h
    exact absurd h (by simp)

theorem noUpper_findFirstUpper_none {l : List Nat} (h : noUpper l = true) :
    findFirstUpper l = none := by
  induction l with
  | nil => rfl
  | cons b rest ih =>
      unfold noUpper at h
      simp only [List.all_cons, Bool.and_eq_true, Bool.not_eq_true'] at h
      unfold findFirstUpper
      rw [if_neg (by simp [h.1]), ih h.2]
      rfl

theorem getD_map_toLowerByte {l : List Nat} {i : Nat} (h : i < l.length) :
    (l.map toLowerByte).getD i 0 = toLowerByte (l.getD i 0) := by
  induction l generalizing i with
  | nil => simp at h
  | cons b rest ih =>
      cases i with
      | zero => simp
      | succ j =>
          simp only [List.map_cons, List.getD_cons_succ]
          exact ih (by simpa using h)

theorem getD_oob_map_toLowerByte {l : List Nat} {i : Nat} (h : l.length ≤ i) :
    (l.map toLowerByte).getD i 0 = l.getD i 0 := by
  rw [List.getD_eq_default _ _ (by simpa using h), List.getD_eq_default _ _ h]

theorem dictGet_sentinel_none {V : Type} {arms : Dict V}
    (h : arms.all (fun e => noUpper e.1) = true) : dictGet arms [65] = none := by
  induction arms with
  | nil => rfl
  | cons e rest ih =>
      obtain ⟨key, v⟩ := e
      simp only [List.all_cons, Bool.and_eq_true] at h
      unfold dictGet
      rw [if_neg ?_]
      · exact ih h.2
      · intro he
        rw [he] at h
        exact absurd h.1 (by decide)

/-! ### The claims -/

/-- C1: for a dictionary whose key `k` is lowercase ASCII and maps to `v`, the
generated resolver returns `some v` on `k` itself and on every casing variant
`kv` of `k` (any string whose byte-wise ASCII lowercasing is `k`). -/
theorem resolve_key_and_casing_variants {V : Type} {dict : Dict V}
    {k kv : List Nat} {v : V}
    (hget : dictGet dict k = some v) (hlow : noUpper k = true)
    (hvar : kv.map toLowerByte = k) :
    resolve dict k = some v ∧ resolve dict kv = some v := by
  have hkmax : k.length ≤ maxKeyLen dict := dictGet_length_le hget
  have hkvlen : kv.length = k.length := by
    rw [← hvar, List.length_map]
  constructor
  · unfold resolve
    rw [toLowercase_eq_of_le hkmax, map_toLowerByte_of_noUpper hlow]
    simpa using hget
  · unfold resolve
    rw [toLowercase_eq_of_le (by omega), hvar]
    simpa using hget

/-- Witness for C1 at the dictionary `{"red" -> 42}` with variant `"REd"`. -/
theorem resolve_key_and_casing_variants_check :
    resolve ([([114, 101, 100], 42)] : Dict Nat) [114, 101, 100] = some 42
    ∧ resolve ([([114, 101, 100], 42)] : Dict Nat) [82, 69, 100] = some 42 :=
  resolve_key_and_casing_variants (by decide) (by decide) (by decide)

/-- C2: the resolver returns `none` exactly when the input is longer than the
longest key or the ASCII-lowercased input is not a key; there is no other
failure outcome, and over-long inputs yield `none` regardless of dictionary
contents. -/
theorem resolve_none_iff {V : Type} (dict : Dict V) (s : List Nat) :
    resolve dict s = none ↔
      maxKeyLen dict < s.length ∨ dictGet dict (s.map toLowerByte) = none := by
  by_cases hl : s.length ≤ maxKeyLen dict
  · unfold resolve
    rw [toLowercase_eq_of_le hl]
    simp only [Option.some_bind]
    constructor
    · exact fun h => Or.inr h
    · rintro (h | h)
      · omega
      · exact h
  · unfold resolve
    rw [toLowercase_eq_none_of_gt (by omega)]
    simp only [Option.none_bind]
    exact ⟨fun _ => Or.inl (by omega), fun _ => trivial⟩

/-- C3: the fold changes only ASCII-uppercase bytes, passes every byte
≥ 0x80 through unchanged, and maps well-formed UTF-8 input to well-formed
UTF-8 output, so the `from_utf8_unchecked` reinterpretation is sound. -/
theorem fold_preserves_utf8 (cap i : Nat) (input s : List Nat)
    (hv : Utf8Valid input) (hs : toLowercase cap input = some s) :
    (s.getD i 0 ≠ input.getD i 0 →
      65 ≤ input.getD i 0 ∧ input.getD i 0 ≤ 90)
    ∧ (128 ≤ input.getD i 0 → s.getD i 0 = input.getD i 0)
    ∧ Utf8Valid s := by
  obtain ⟨hl, rfl⟩ := toLowercase_some_le hs
  refine ⟨?_, fun h => map_toLowerByte_getD_nonascii h,
    utf8Valid_map_toLowerByte hv⟩
  intro hne
  by_cases hi : i < input.length
  · rw [getD_map_toLowerByte hi] at hne
    by_contra hcon
    exact hne (by unfold toLowerByte; rw [if_neg hcon])
  · rw [getD_oob_map_toLowerByte (by omega)] at hne
    exact absurd rfl hne

/-- Witness for C3 at the UTF-8 input `"éA"` = `[0xC3, 0xA9, 0x41]`, whose
fold is `[0xC3, 0xA9, 0x61]`, inspected at index 2. -/
theorem fold_preserves_utf8_check :
    (([195, 169, 97] : List Nat).getD 2 0 ≠ ([195, 169, 65] : List Nat).getD 2 0 →
      65 ≤ ([195, 169, 65] : List Nat).getD 2 0
        ∧ ([195, 169, 65] : List Nat).getD 2 0 ≤ 90)
    ∧ (128 ≤ ([195, 169, 65] : List Nat).getD 2 0 →
        ([195, 169, 97] : List Nat).getD 2 0 = ([195, 169, 65] : List Nat).getD 2 0)
    ∧ Utf8Valid [195, 169, 97] :=
  fold_preserves_utf8 3 2 [195, 169, 65] [195, 169, 97]
    (Utf8Valid.two (by decide) (by decide) ⟨by decide, by decide⟩
      (Utf8Valid.ascii (by decide) Utf8Valid.nil))
    (by decide)

/-- C4: the optimized fold (copy all, lowercase only the suffix from the first
uppercase byte) is extensionally equal to the naive fold that lowercases the
whole copied buffer unconditionally. -/
theorem optimized_fold_eq_naive_fold :
    ∀ (cap : Nat) (input : List Nat),
      toLowercase cap input = toLowercaseNaive cap input := by
  intro cap input
  unfold toLowercaseNaive
  by_cases hl : input.length ≤ cap
  · rw [toLowercase_eq_of_le hl, if_pos hl]
  · rw [toLowercase_eq_none_of_gt (by omega), if_neg hl]

/-- C5: folding leaves every non-ASCII byte (≥ 0x80) at its position
unchanged, and a successful resolution exhibits a dictionary key that carries
the identical non-ASCII bytes at the identical positions as the input. -/
theorem resolve_nonascii_positions {V : Type} (dict : Dict V)
    (input s : List Nat) (i : Nat)
    (hs : toLowercase (maxKeyLen dict) input = some s) :
    (128 ≤ input.getD i 0 → s.getD i 0 = input.getD i 0)
    ∧ ∀ v, resolve dict input = some v →
        ∃ k, dictGet dict k = some v ∧ k.length = input.length ∧
          ∀ j, 128 ≤ input.getD j 0 → k.getD j 0 = input.getD j 0 := by
  obtain ⟨hl, rfl⟩ := toLowercase_some_le hs
  refine ⟨fun h => map_toLowerByte_getD_nonascii h, ?_⟩
  intro v hr
  refine ⟨input.map toLowerByte, ?_, by simp,
    fun j hj => map_toLowerByte_getD_nonascii hj⟩
  unfold resolve at hr
  rw [toLowercase_eq_of_le hl] at hr
  simpa using hr

/-- Witness for C5 at the dictionary `{[0xC2, 0xA9] -> 5}` (the copyright
sign) and the identical input, inspected at index 0. -/
theorem resolve_nonascii_positions_check :
    (128 ≤ ([194, 169] : List Nat).getD 0 0 →
      ([194, 169] : List Nat).getD 0 0 = ([194, 169] : List Nat).getD 0 0)
    ∧ ∀ v, resolve ([([194, 169], 5)] : Dict Nat) [194, 169] = some v →
        ∃ k, dictGet ([([194, 169], 5)] : Dict Nat) k = some v
          ∧ k.length = ([194, 169] : List Nat).length
          ∧ ∀ j, 128 ≤ ([194, 169] : List Nat).getD j 0 →
              k.getD j 0 = ([194, 169] : List Nat).getD j 0 :=
  resolve_nonascii_positions [([194, 169], 5)] [194, 169] [194, 169] 0 (by decide)

/-- C6: on an input with no ASCII-uppercase byte that fits the buffer, the
fold returns `some` of the input itself, and the scan for an uppercase byte
comes back empty, i.e. the zero-copy branch (not the buffer-copying one) is
the branch taken. -/
theorem fold_idempotent_on_lowercase {cap : Nat} {input : List Nat}
    (h1 : noUpper input = true) (h2 : input.length ≤ cap) :
    toLowercase cap input = some input ∧ findFirstUpper input = none := by
  have hf : findFirstUpper input = none := noUpper_findFirstUpper_none h1
  refine ⟨?_, hf⟩
  unfold toLowercase
  rw [if_pos h2, hf]

/-- Witness for C6 at the lowercase input `"ab-1é"` with capacity 8. -/
theorem fold_idempotent_on_lowercase_check :
    toLowercase 8 [97, 98, 45, 49, 195, 169] = some [97, 98, 45, 49, 195, 169]
    ∧ findFirstUpper [97, 98, 45, 49, 195, 169] = none :=
  fold_idempotent_on_lowercase (by decide) (by decide)

/-- C7: whenever the fold returns `some s`, the byte length of `s` equals the
byte length of the input. -/
theorem fold_preserves_length (cap : Nat) (input s : List Nat)
    (h : toLowercase cap input = some s) : s.length = input.length := by
  obtain ⟨_, rfl⟩ := toLowercase_some_le h
  simp

/-- Witness for C7 at input `"Mid"` with capacity 4. -/
theorem fold_preserves_length_check :
    ([109, 105, 100] : List Nat).length = ([77, 105, 100] : List Nat).length :=
  fold_preserves_length 4 [77, 105, 100] [109, 105, 100] (by decide)

/-- The example dictionary of the spec:
`{"red" -> (255,0,0), "green" -> (0,255,0), "blue" -> (0,0,255)}`. -/
def colorDict : Dict (Nat × Nat × Nat) :=
  [([114, 101, 100], (255, 0, 0)),
   ([103, 114, 101, 101, 110], (0, 255, 0)),
   ([98, 108, 117, 101], (0, 0, 255))]

/-- C8: on the concrete color dictionary, `"RED"` resolves to `(255,0,0)`,
`"Blue"` to `(0,0,255)`, `"purple"` and `"reddish"` to `none`, the maximum
key length is 5, and `"reddish"` has length 7. -/
theorem resolve_color_examples :
    resolve colorDict [82, 69, 68] = some (255, 0, 0)
    ∧ resolve colorDict [66, 108, 117, 101] = some (0, 0, 255)
    ∧ resolve colorDict [112, 117, 114, 112, 108, 101] = none
    ∧ resolve colorDict [114, 101, 100, 100, 105, 115, 104] = none
    ∧ maxKeyLen colorDict = 5
    ∧ ([114, 101, 100, 100, 105, 115, 104] : List Nat).length = 7 := by
  decide

/-- C9: the empty input always folds to `some []` (for every capacity,
including 0), and resolving it is exactly the dictionary lookup of the empty
key: it succeeds precisely when the dictionary has an empty-string key. -/
theorem resolve_empty_input {V : Type} (dict : Dict V) (cap : Nat) :
    toLowercase cap [] = some []
    ∧ resolve dict [] = dictGet dict []
    ∧ ((resolve dict []).isSome ↔ (dictGet dict []).isSome) := by
  have h0 : ∀ c : Nat, toLowercase c [] = some [] := by
    intro c
    unfold toLowercase
    rw [if_pos (by simp)]
    rfl
  refine ⟨h0 cap, ?_, ?_⟩
  · unfold resolve
    rw [h0 _]
    rfl
  · unfold resolve
    rw [h0 _]
    exact Iff.rfl

/-- C10: in `match_ignore_ascii_case!`, when the input is longer than
`MAX_LENGTH` the lowercasing yields `none`, replaced by the sentinel `"A"`;
since every string arm is uppercase-free the sentinel matches no arm and the
wildcard arm's value is returned. -/
theorem matchIgnore_overlong_default {V : Type} (arms : Dict V) (dflt : V)
    (input : List Nat)
    (hlow : arms.all (fun e => noUpper e.1) = true)
    (hlen : maxKeyLen arms < input.length) :
    matchIgnoreAsciiCase arms dflt input = dflt := by
  unfold matchIgnoreAsciiCase
  rw [toLowercase_eq_none_of_gt hlen]
  simp only [Option.getD_none]
  rw [dictGet_sentinel_none hlow]

/-- Witness for C10 at arms `{"rgb" -> 1, "hsl" -> 2}` with default 0 and the
over-long input `"abcd"`. -/
theorem matchIgnore_overlong_default_check :
    matchIgnoreAsciiCase ([([114, 103, 98], 1), ([104, 115, 108], 2)] : Dict Nat)
      0 [97, 98, 99, 100] = 0 :=
  matchIgnore_overlong_default _ _ _ (by decide) (by decide)

end Cssparser
